import Mathlib

/-!
A shallow embedding of `src/main.rs` (the multichecks command dashboard):
ANSI color parsing and rendering, the terminal line tracker, the per-command
supervisor state machine, and the supervisor set's tick loop.

Modelling conventions:
* Rust strings are `List Char`; byte lengths are computed with `Char.utf8Size`
  where the source uses `str::len()`.
* Effectful operations (process spawning, `try_wait` polling, pipe reads) take
  explicit outcome parameters describing what the operating system returned.
* Terminal output is modelled as the list of characters (or of whole lines)
  written; cursor-control sequences emitted via `print!` are not tracked.
* The regex `\x1b\[(\d+)m` is modelled by an explicit character scanner;
  `\d` is modelled as the ASCII digits `0`-`9`.
-/

/-- The ASCII escape character that starts an ANSI control sequence. -/
def escCh : Char := '\x1b'

/-- Colors recognised by the dashboard (`enum Color` in the source). -/
inductive Color
  | Normal
  | Gray
  | Green
  | Yellow
  | Red
  | Other (code : Int)
deriving DecidableEq

/-- Numeric SGR code of a color, as matched in `impl fmt::Display for Color`. -/
def Color.code : Color → Int
  | .Normal => 0
  | .Gray => 90
  | .Green => 32
  | .Red => 31
  | .Yellow => 33
  | .Other n => n

/-- The named variants, whose numeric code is a known constant of the
mapping table (everything except the `Other` fallback). -/
def Color.known_code : Color → Bool
  | .Other _ => false
  | _ => true

/-- Decimal digits of a natural number, most significant first (fuel-based). -/
def natToCharsAux : Nat → Nat → List Char
  | 0, _ => []
  | fuel + 1, n =>
      if n < 10 then [Char.ofNat (48 + n)]
      else natToCharsAux fuel (n / 10) ++ [Char.ofNat (48 + n % 10)]

/-- Decimal rendering of a natural number. -/
def natToChars (n : Nat) : List Char := natToCharsAux (n + 1) n

/-- Decimal rendering of an integer, as `write!` formats an `i32`. -/
def intToChars (i : Int) : List Char :=
  if i < 0 then '-' :: natToChars i.natAbs else natToChars i.toNat

/-- `render`: the literal escape sequence `ESC [ code m`
(`write!(f, "\x1b[{}m", code)` in the `Display` impl). -/
def Color.render (c : Color) : List Char :=
  escCh :: '[' :: intToChars c.code ++ ['m']

/-- Numeric value of a list of ASCII digits. -/
def digitsVal (ds : List Char) : Nat :=
  ds.foldl (fun acc c => acc * 10 + (c.toNat - 48)) 0

/-- `i32::from_str`: optional sign, one or more digits, and a range check
against the `i32` bounds; `none` models `Err(_)` (in particular overflow). -/
def i32_from_str (s : List Char) : Option Int :=
  let signDigits : Int × List Char :=
    match s with
    | '+' :: rest => (1, rest)
    | '-' :: rest => (-1, rest)
    | _ => (1, s)
  if signDigits.2 = [] then none
  else if ¬ signDigits.2.all Char.isDigit then none
  else
    let v : Int := signDigits.1 * digitsVal signDigits.2
    if v < -2147483648 ∨ 2147483647 < v then none else some v

/-- The `match &captures[1]` arm of `Color::find_all`: named codes are matched
as literal strings, anything else goes through `i32::from_str`, and an
unparseable code degrades to `Normal`. -/
def codeToColor (code : List Char) : Color :=
  if code = ['0'] then .Normal
  else if code = ['9', '0'] then .Gray
  else if code = ['3', '2'] then .Green
  else if code = ['3', '1'] then .Red
  else if code = ['3', '3'] then .Yellow
  else
    match i32_from_str code with
    | .some c => .Other c
    | .none => .Normal

/-- State of the scanner for the pattern `ESC [ digits m`. -/
inductive ScanState
  | outside
  | afterEsc
  | inCode (ds : List Char)
deriving DecidableEq

/-- Left-to-right, non-overlapping scan for `ESC [ (\d+) m`, returning the
captured digit groups in order of occurrence (the semantics of
`COLORS_REGEX.captures_iter`). -/
def scanTokens : ScanState → List Char → List (List Char)
  | _, [] => []
  | .outside, c :: rest =>
      if c = escCh then scanTokens .afterEsc rest else scanTokens .outside rest
  | .afterEsc, c :: rest =>
      if c = '[' then scanTokens (.inCode []) rest
      else if c = escCh then scanTokens .afterEsc rest
      else scanTokens .outside rest
  | .inCode ds, c :: rest =>
      if c.isDigit then scanTokens (.inCode (ds ++ [c])) rest
      else if c = 'm' ∧ ds ≠ [] then ds :: scanTokens .outside rest
      else if c = escCh then scanTokens .afterEsc rest
      else scanTokens .outside rest

/-- `Color::find_all`: every captured code of the color regex, mapped to a
`Color`, in order of occurrence. -/
def Color.find_all (text : List Char) : List Color :=
  (scanTokens .outside text).map codeToColor

/-- The partial match the scanner has consumed in a given state. -/
def scanPending : ScanState → List Char
  | .outside => []
  | .afterEsc => [escCh]
  | .inCode ds => escCh :: '[' :: ds

/-- The digit group accumulated so far in a given scanner state. -/
def scanDigits : ScanState → List Char
  | .inCode ds => ds
  | _ => []

/-- `text` contains an occurrence of the escape pattern `ESC [ <digits> m`. -/
def hasEscSeq (text : List Char) : Prop :=
  ∃ pre ds post,
    text = pre ++ escCh :: '[' :: (ds ++ 'm' :: post) ∧
    ds ≠ [] ∧ ∀ d ∈ ds, d.isDigit = true

/-- Quote-color selection in `print_output`:
`match colors.len() { 0 => Normal, 1 => colors[0], _ => Yellow }`. -/
def quoteColor (line : List Char) : Color :=
  match Color.find_all line with
  | [] => .Normal
  | [c] => c
  | _ => .Yellow

/-- Rust `str::split("\n")`: always at least one piece; an empty string
splits into one empty piece. -/
def splitOnNl : List Char → List (List Char)
  | [] => [[]]
  | c :: rest =>
      if c = '\n' then [] :: splitOnNl rest
      else
        match splitOnNl rest with
        | [] => [[c]]
        | l :: ls => (c :: l) :: ls

/-- Re-joins the pieces of `splitOnNl` with a newline between them. -/
def joinNl : List (List Char) → List Char
  | [] => []
  | [l] => l
  | l :: ls => l ++ '\n' :: joinNl ls

/-- Rust `str::split_inclusive("\n")`: each piece keeps its trailing newline,
and the empty string yields no piece at all. -/
def splitInclusive : List Char → List (List Char)
  | [] => []
  | c :: rest =>
      if c = '\n' then [c] :: splitInclusive rest
      else
        match splitInclusive rest with
        | [] => [[c]]
        | l :: ls => (c :: l) :: ls

/-- UTF-8 byte length of a string, as Rust `str::len()` counts it. -/
def byteLen (s : List Char) : Nat :=
  s.foldl (fun acc c => acc + c.utf8Size) 0

/-- `enum CommandStatus` from the source. -/
inductive CommandStatus
  | Unstarted
  | Running
  | Finished (code : Int)
  | Error (msg : String)
deriving DecidableEq

/-- `CommandStatus::is_terminal_state`. -/
def CommandStatus.is_terminal_state : CommandStatus → Bool
  | .Unstarted | .Running => false
  | .Finished _ | .Error _ => true

/-- `CommandStatus::is_error`. -/
def CommandStatus.is_error : CommandStatus → Bool
  | .Unstarted | .Running | .Finished 0 => false
  | _ => true

/-- Outcome of fully reading one captured output pipe (`read_to_string`). -/
inductive StreamRead
  | ok (data : List Char)
  | err (msg : String)
deriving DecidableEq

/-- An owned child-process handle: the two captured pipes, each taken out
(`Option::take`) when the output is drained. -/
structure Child where
  stdout : Option StreamRead
  stderr : Option StreamRead
deriving DecidableEq

/-- What `Command::spawn` returned: a child whose two pipes are present
(`Stdio::piped()`), or a platform error message. -/
inductive SpawnOutcome
  | ok (stdoutData stderrData : StreamRead)
  | fail (msg : String)

/-- What `Child::try_wait` returned: `Ok(Some(status))` with
`status.code()`, `Ok(None)`, or `Err(e)`. -/
inductive PollOutcome
  | exited (code : Option Int)
  | stillRunning
  | pollErr (msg : String)

/-- `struct CommandDesc`. -/
structure CommandDesc where
  command_strs : List String
  command_spawn : Option Child
  status : CommandStatus
deriving DecidableEq

/-- `CommandDesc::new`. -/
def CommandDesc.new (command : List String) : CommandDesc :=
  ⟨command, none, .Unstarted⟩

/-- `CommandDesc::check`, with the `try_wait` result passed explicitly. -/
def CommandDesc.check (c : CommandDesc) (p : PollOutcome) : CommandDesc :=
  if c.status.is_terminal_state then c
  else
    match c.command_spawn with
    | none => c
    | some _ =>
        match p with
        | .exited none => { c with status := .Error "Error reading status code" }
        | .exited (some code) => { c with status := .Finished code }
        | .stillRunning => c
        | .pollErr e => { c with status := .Error e }

/-- `CommandDesc::start`, with the `spawn` result passed explicitly: a no-op
on an empty argument vector, otherwise records the handle and `Running` on
success or no handle and `Error` on failure. -/
def CommandDesc.start (c : CommandDesc) (outcome : SpawnOutcome) : CommandDesc :=
  match c.command_strs with
  | [] => c
  | _ :: _ =>
      match outcome with
      | .ok outData errData =>
          { c with status := .Running,
                   command_spawn := some ⟨some outData, some errData⟩ }
      | .fail e =>
          { c with status := .Error e, command_spawn := none }

/-- `CommandDesc::UNSTARTED_DOTS`. -/
def UNSTARTED_DOTS : List String := ["·  ", " · ", "  ·", " · "]

/-- `CommandDesc::RUNNING_DOTS`. -/
def RUNNING_DOTS : List String := ["⠋", "⠙", "⠹", "⠸", "⠼", "⠴", "⠦", "⠧", "⠇", "⠏"]

/-- `CommandDesc::print_summary`: the text written for one summary (no
trailing newline): `"<argv joined by spaces>: <color><glyph>ESC[0m"`. -/
def CommandDesc.print_summary (c : CommandDesc) (tick : Nat) : List Char :=
  let sc : String × Color :=
    match c.status with
    | .Unstarted => (UNSTARTED_DOTS.getD (tick % 4) "", .Gray)
    | .Running => (RUNNING_DOTS.getD (tick % 10) "", .Normal)
    | .Finished 0 => ("OK", .Green)
    | .Finished _ => ("FAILED", .Red)
    | .Error _ => ("FAILED", .Red)
  (String.intercalate " " c.command_strs).data ++ ": ".data ++
    Color.render sc.2 ++ sc.1.data ++ "\x1b[0m".data

/-- The annotation written into the buffer when `read_to_string` fails. -/
def readErrText (e : String) : List Char :=
  Color.render .Red ++ "Error reading stdout".data ++ Color.render .Normal ++
    ": ".data ++ e.data

/-- One quoted output line: `"<quote-color>│<Normal> <line>"` (`last_color`
in the source is the constant `Color::Normal`). -/
def quotedLine (qc : Color) (line : List Char) : List Char :=
  Color.render qc ++ '│' :: Color.render .Normal ++ ' ' :: line

/-- `CommandDesc::print_output`: the quoted lines written for one captured
pipe. `none` models a pipe already taken; a read failure becomes an inline
annotation; an empty buffer produces no lines at all. -/
def CommandDesc.print_output (source : Option StreamRead) : List (List Char) :=
  match source with
  | none => []
  | some r =>
      let str : List Char :=
        match r with
        | .ok s => s
        | .err e => readErrText e
      if str = [] then []
      else (splitOnNl str).map fun line => quotedLine (quoteColor line) line

/-- The `"! Failed to start process"` line (red `!`, then normal color). -/
def failedStartLine : List Char :=
  Color.render .Red ++ '!' :: Color.render .Normal ++ " Failed to start process".data

/-- `CommandDesc::print_details`: nothing unless the status is a failure;
without a handle, the failed-start notice; otherwise both pipes are taken
out of the handle and drained.  Returns the updated supervisor and the
lines written. -/
def CommandDesc.print_details (c : CommandDesc) : CommandDesc × List (List Char) :=
  if c.status.is_error = false then (c, [])
  else
    match c.command_spawn with
    | none => (c, [failedStartLine])
    | some child =>
        ({ c with command_spawn := some ⟨none, none⟩ },
         CommandDesc.print_output child.stdout ++ CommandDesc.print_output child.stderr)

/-- The per-round environment: what `spawn` (first round) or `try_wait`
(later rounds) returns for the supervisor at each position. -/
structure TickEnv where
  spawn : Nat → SpawnOutcome
  poll : Nat → PollOutcome

/-- Applies `f` to every element together with its position (starting at
`i`): the `iter_mut`/`enumerate` loops of `Commands`. -/
def stepCmds (f : Nat → CommandDesc → CommandDesc) : Nat → List CommandDesc → List CommandDesc
  | _, [] => []
  | i, c :: rest => f i c :: stepCmds f (i + 1) rest

/-- `struct Commands`. -/
structure Commands where
  commands : List CommandDesc
  tick : Nat
deriving DecidableEq

/-- The modulus of `usize` arithmetic (`tick.wrapping_add(1)`). -/
def usizeSize : Nat := 18446744073709551616

/-- `Commands::new`. -/
def Commands.new : Commands := ⟨[], 0⟩

/-- `Commands::all_done`. -/
def Commands.all_done (s : Commands) : Bool :=
  s.commands.all fun c => c.status.is_terminal_state

/-- The summary-rendering loop of `summarize_all`: each summary is followed
by a newline when its position differs from `n` (`last_commands_idx`, which
the source sets to `commands.len()`). -/
def renderFrom (tick n : Nat) : Nat → List CommandDesc → List Char
  | _, [] => []
  | i, c :: rest =>
      c.print_summary tick ++ (if i ≠ n then ['\n'] else []) ++
        renderFrom tick n (i + 1) rest

/-- `Commands::summarize_all`: on tick 0 every supervisor is started, on
later ticks every supervisor is checked; then one summary per supervisor is
rendered with the pre-increment tick, and the tick wraps forward.  Returns
the new state and the frame text written. -/
def Commands.summarize_all (s : Commands) (env : TickEnv) : Commands × List Char :=
  let n := s.commands.length
  let cmds :=
    if s.tick > 0 then stepCmds (fun i c => c.check (env.poll i)) 0 s.commands
    else stepCmds (fun i c => c.start (env.spawn i)) 0 s.commands
  (⟨cmds, (s.tick + 1) % usizeSize⟩, renderFrom s.tick n 0 cmds)

/-- `k` successive `summarize_all` rounds, the `j`-th driven by `envs j`. -/
def iterTicks : (Nat → TickEnv) → Nat → Commands → Commands
  | _, 0, s => s
  | envs, k + 1, s => iterTicks (fun n => envs (n + 1)) k (s.summarize_all (envs 0)).1

/-- `struct Terminal`. -/
structure Terminal where
  next_write : Nat
  written_lines_lengths : List Nat
deriving DecidableEq

/-- `Terminal::new`. -/
def Terminal.new : Terminal := ⟨0, []⟩

/-- `Terminal::reset` (the emitted erase/rewind control sequences are not
tracked): a no-op when no line was written, otherwise the write cursor
returns to row 0 while the tracked lengths persist. -/
def Terminal.reset (t : Terminal) : Terminal :=
  if t.written_lines_lengths.length = 0 then t else { t with next_write := 0 }

/-- The `while` loop of `write_str`: pad the tracked lengths with zeroes
until the list covers index `n - 1`. -/
def padTo (l : List Nat) (n : Nat) : List Nat :=
  l ++ List.replicate (n - l.length) 0

/-- One iteration of the `write_str` loop for a single inclusive-split
segment, including the fallible `get_mut(...).ok_or(Error)?` access. -/
def Terminal.writeSeg (t : Terminal) (line : List Char) : Except Unit Terminal :=
  let lens := padTo t.written_lines_lengths (t.next_write + 1)
  match lens.get? t.next_write with
  | none => .error ()
  | some prev =>
      if line.getLast? = some '\n' then
        .ok ⟨t.next_write + 1, lens.set t.next_write (prev + (byteLen line - 1))⟩
      else
        .ok ⟨t.next_write, lens.set t.next_write (prev + byteLen line)⟩

/-- `Terminal::write_str`: fold `writeSeg` over the inclusive newline split
of the text. -/
def Terminal.write_str (t : Terminal) (s : List Char) : Except Unit Terminal :=
  (splitInclusive s).foldlM Terminal.writeSeg t

/-! ## Supporting lemmas -/

theorem stepCmds_get (f : Nat → CommandDesc → CommandDesc) :
    ∀ (l : List CommandDesc) (i j : Nat),
      (stepCmds f i l)[j]? = l[j]?.map (f (i + j)) := by
  intro l
  induction l with
  | nil => intro i j; simp [stepCmds]
  | cons c rest ih =>
    intro i j
    cases j with
    | zero => simp [stepCmds]
    | succ j =>
      simp only [stepCmds, List.getElem?_cons_succ]
      rw [ih (i + 1) j, show i + 1 + j = i + (j + 1) by omega]

theorem stepCmds_id (f : Nat → CommandDesc → CommandDesc) :
    ∀ (l : List CommandDesc) (i : Nat), (∀ c ∈ l, ∀ j, f j c = c) → stepCmds f i l = l := by
  intro l
  induction l with
  | nil => intro i _; rfl
  | cons c rest ih =>
    intro i h
    simp only [stepCmds]
    rw [h c (by simp) i, ih (i + 1) fun d hd j => h d (by simp [hd]) j]

theorem check_of_terminal (c : CommandDesc) (p : PollOutcome)
    (h : c.status.is_terminal_state = true) : c.check p = c := by
  simp [CommandDesc.check, h]

theorem splitOnNl_ne_nil : ∀ s : List Char, splitOnNl s ≠ [] := by
  intro s
  cases s with
  | nil => simp [splitOnNl]
  | cons c rest =>
    simp only [splitOnNl]
    split
    · simp
    · rcases h : splitOnNl rest with _ | ⟨l, ls⟩ <;> simp

theorem joinNl_splitOnNl : ∀ s : List Char, joinNl (splitOnNl s) = s := by
  intro s
  induction s with
  | nil => rfl
  | cons c rest ih =>
    rcases hs : splitOnNl rest with _ | ⟨l, ls⟩
    · exact absurd hs (splitOnNl_ne_nil rest)
    · rw [hs] at ih
      by_cases h : c = '\n'
      · subst h
        simp only [splitOnNl, if_pos rfl, hs, joinNl]
        simpa using ih
      · simp only [splitOnNl, if_neg h, hs]
        cases ls with
        | nil => simpa [joinNl] using ih
        | cons l2 ls2 =>
          simp only [joinNl] at ih ⊢
          simpa using ih

theorem splitOnNl_length : ∀ s : List Char, (splitOnNl s).length = s.count '\n' + 1 := by
  intro s
  induction s with
  | nil => rfl
  | cons c rest ih =>
    by_cases h : c = '\n'
    · subst h
      simp [splitOnNl, ih, List.count_cons]
    · rcases hs : splitOnNl rest with _ | ⟨l, ls⟩
      · exact absurd hs (splitOnNl_ne_nil rest)
      · rw [hs] at ih
        simp only [splitOnNl, if_neg h, hs, List.length_cons] at ih ⊢
        rw [List.count_cons]
        simp [h, ih]

/-! ## Claims -/

/-- Claim C2: `check` is a no-op when the status is terminal or no handle
exists; otherwise a completed poll with an exit code yields `Finished(code)`,
a completed poll without one yields `Error("Error reading status code")`,
a still-running poll changes nothing, and a failed poll yields
`Error(message)`. -/
theorem check_transitions (c : CommandDesc) :
    (∀ p, c.status.is_terminal_state = true → c.check p = c) ∧
    (∀ p, c.command_spawn = none → c.check p = c) ∧
    (c.status.is_terminal_state = false → c.command_spawn.isSome = true →
      (∀ code, (c.check (.exited (some code))).status = .Finished code) ∧
      ((c.check (.exited none)).status = .Error "Error reading status code") ∧
      (c.check .stillRunning = c) ∧
      (∀ e, (c.check (.pollErr e)).status = .Error e)) := by
  refine ⟨fun p h => check_of_terminal c p h, fun p h => ?_, fun h1 h2 => ?_⟩
  · by_cases ht : c.status.is_terminal_state <;> simp [CommandDesc.check, ht, h]
  · obtain ⟨child, hc⟩ := Option.isSome_iff_exists.mp h2
    refine ⟨fun code => ?_, ?_, ?_, fun e => ?_⟩ <;> simp [CommandDesc.check, h1, hc]

/-- Witness for C2: the five cases evaluated on concrete supervisors. -/
theorem check_transitions_witness :
    CommandDesc.check ⟨["x"], none, .Finished 0⟩ .stillRunning = ⟨["x"], none, .Finished 0⟩ ∧
    (CommandDesc.check ⟨["x"], some ⟨some (.ok []), some (.ok [])⟩, .Running⟩
        (.exited (some 3))).status = .Finished 3 ∧
    (CommandDesc.check ⟨["x"], some ⟨some (.ok []), some (.ok [])⟩, .Running⟩
        (.exited none)).status = .Error "Error reading status code" ∧
    CommandDesc.check ⟨["x"], some ⟨some (.ok []), some (.ok [])⟩, .Running⟩ .stillRunning =
      ⟨["x"], some ⟨some (.ok []), some (.ok [])⟩, .Running⟩ ∧
    (CommandDesc.check ⟨["x"], some ⟨some (.ok []), some (.ok [])⟩, .Running⟩
        (.pollErr "boom")).status = .Error "boom" :=
  ⟨(check_transitions _).1 _ (by decide),
   ((check_transitions _).2.2 (by decide) (by decide)).1 3,
   ((check_transitions _).2.2 (by decide) (by decide)).2.1,
   ((check_transitions _).2.2 (by decide) (by decide)).2.2.1,
   ((check_transitions _).2.2 (by decide) (by decide)).2.2.2 "boom"⟩

/-- Claim C3: for every color with a known numeric code, parsing the
rendered escape sequence returns exactly that singleton color. -/
theorem parse_render_roundtrip (c : Color) (h : c.known_code = true) :
    Color.find_all (Color.render c) = [c] := by
  cases c with
  | Other n => exact absurd h (by simp [Color.known_code])
  | Normal => decide
  | Gray => decide
  | Green => decide
  | Yellow => decide
  | Red => decide

/-- Witness for C3: the round trip evaluated at `Green`. -/
theorem parse_render_roundtrip_witness :
    Color.known_code .Green = true ∧ Color.find_all (Color.render .Green) = [.Green] :=
  ⟨by decide, parse_render_roundtrip .Green (by decide)⟩

/-- Claim C4: the quote color of a captured line is chosen from the number
of color codes found in it: zero gives `Normal`, exactly one gives that
code's color, two or more give `Yellow`. -/
theorem quote_color_selection (line : List Char) :
    ((Color.find_all line).length = 0 → quoteColor line = .Normal) ∧
    (∀ c, Color.find_all line = [c] → quoteColor line = c) ∧
    (2 ≤ (Color.find_all line).length → quoteColor line = .Yellow) := by
  refine ⟨fun h0 => ?_, fun c h1 => ?_, fun h2 => ?_⟩
  · rw [List.length_eq_zero] at h0
    simp [quoteColor, h0]
  · simp [quoteColor, h1]
  · rcases h : Color.find_all line with _ | ⟨a, _ | ⟨b, tl⟩⟩
    · rw [h] at h2; simp at h2
    · rw [h] at h2; simp at h2
    · simp [quoteColor, h]

/-- Witness for C4: lines with zero, one and two embedded codes. -/
theorem quote_color_selection_witness :
    quoteColor "abc".data = .Normal ∧
    quoteColor (Color.render .Red ++ "x".data) = .Red ∧
    quoteColor (Color.render .Red ++ Color.render .Normal) = .Yellow :=
  ⟨(quote_color_selection "abc".data).1 (by decide),
   (quote_color_selection _).2.1 .Red (by decide),
   (quote_color_selection _).2.2 (by decide)⟩

/-- Claim C5 (amended): draining a captured stream splits the text on
newline boundaries and writes one quoted line per resulting line when the
captured text is nonempty; an empty capture is skipped entirely and
produces no quoted line.  (A nonempty capture that ends in a newline does
yield a trailing empty quoted line, since the split keeps the empty piece
after the final separator.) -/
theorem print_output_splits (str : List Char) :
    (str ≠ [] →
      CommandDesc.print_output (some (.ok str)) =
        (splitOnNl str).map fun line => quotedLine (quoteColor line) line) ∧
    CommandDesc.print_output (some (.ok [])) = [] ∧
    joinNl (splitOnNl str) = str ∧
    (splitOnNl str).length = str.count '\n' + 1 :=
  ⟨fun h => by simp [CommandDesc.print_output, h], rfl,
   joinNl_splitOnNl str, splitOnNl_length str⟩

/-- Witness for C5 (amended): the drain of the capture `"a\nb"`. -/
theorem print_output_splits_witness :
    CommandDesc.print_output (some (.ok "a\nb".data)) =
      (splitOnNl "a\nb".data).map (fun line => quotedLine (quoteColor line) line) ∧
    joinNl (splitOnNl "a\nb".data) = "a\nb".data :=
  ⟨(print_output_splits "a\nb".data).1 (by decide),
   (print_output_splits "a\nb".data).2.2.1⟩

/-- Counterexample for C5 as stated: the claim requires a deliberately
emitted empty quoted line for an empty capture (the split of the empty text
has exactly one piece), but the code emits no line at all. -/
theorem print_output_splits_counterexample :
    CommandDesc.print_output (some (.ok [])) = [] ∧
    (splitOnNl ([] : List Char)).length = 1 := by
  decide

/-- Claim C8 (amended): a supervisor's handle is present exactly when it
successfully started: absent at creation, present with status `Running`
after a successful spawn, absent with status `Error` after a failed spawn,
untouched by `start` on an empty argument vector and by `check`.  Detail
printing takes the captured pipes out of the handle but keeps the handle
itself, so the handle is still present after the output has been drained. -/
theorem handle_lifecycle :
    (∀ cs, (CommandDesc.new cs).command_spawn = none ∧
      (CommandDesc.new cs).status = .Unstarted) ∧
    (∀ (c : CommandDesc) o e, c.command_strs ≠ [] →
      (c.start (.ok o e)).command_spawn.isSome = true ∧
      (c.start (.ok o e)).status = .Running) ∧
    (∀ (c : CommandDesc) msg, c.command_strs ≠ [] →
      (c.start (.fail msg)).command_spawn = none ∧
      (c.start (.fail msg)).status = .Error msg) ∧
    (∀ (c : CommandDesc) out, c.command_strs = [] → c.start out = c) ∧
    (∀ (c : CommandDesc) p, (c.check p).command_spawn = c.command_spawn) ∧
    (∀ c : CommandDesc, (c.print_details.1).command_spawn.isSome =
      c.command_spawn.isSome) := by
  refine ⟨fun cs => ⟨rfl, rfl⟩, fun c o e h => ?_, fun c msg h => ?_,
    fun c out h => ?_, fun c p => ?_, fun c => ?_⟩
  · rcases hc : c.command_strs with _ | ⟨a, tl⟩
    · exact absurd hc h
    · constructor <;> simp [CommandDesc.start, hc]
  · rcases hc : c.command_strs with _ | ⟨a, tl⟩
    · exact absurd hc h
    · constructor <;> simp [CommandDesc.start, hc]
  · simp [CommandDesc.start, h]
  · by_cases ht : c.status.is_terminal_state
    · simp [CommandDesc.check, ht]
    · rcases hc : c.command_spawn with _ | child
      · simp [CommandDesc.check, ht, hc]
      · cases p with
        | exited code => cases code <;> simp [CommandDesc.check, ht, hc]
        | stillRunning => simp [CommandDesc.check, ht, hc]
        | pollErr e => simp [CommandDesc.check, ht, hc]
  · by_cases he : c.status.is_error
    · rcases hc : c.command_spawn with _ | child <;>
        simp [CommandDesc.print_details, he, hc]
    · simp [CommandDesc.print_details, he]

/-- Witness for C8 (amended): a successful spawn, a failed spawn and an
empty argument vector, evaluated concretely. -/
theorem handle_lifecycle_witness :
    ((CommandDesc.start ⟨["x"], none, .Unstarted⟩
        (.ok (.ok []) (.ok []))).command_spawn.isSome = true ∧
     (CommandDesc.start ⟨["x"], none, .Unstarted⟩
        (.ok (.ok []) (.ok []))).status = .Running) ∧
    ((CommandDesc.start ⟨["x"], none, .Unstarted⟩
        (.fail "no such file")).command_spawn = none ∧
     (CommandDesc.start ⟨["x"], none, .Unstarted⟩
        (.fail "no such file")).status = .Error "no such file") ∧
    CommandDesc.start ⟨[], none, .Unstarted⟩ (.ok (.ok []) (.ok [])) =
      ⟨[], none, .Unstarted⟩ :=
  ⟨handle_lifecycle.2.1 ⟨["x"], none, .Unstarted⟩ (.ok []) (.ok []) (by decide),
   handle_lifecycle.2.2.1 ⟨["x"], none, .Unstarted⟩ "no such file" (by decide),
   handle_lifecycle.2.2.2.1 ⟨[], none, .Unstarted⟩ (.ok (.ok []) (.ok [])) rfl⟩

/-- Counterexample for C8 as stated: after `print_details` has fully
drained a failed supervisor's output (and did print it), the process
handle is still present, not absent. -/
theorem handle_lifecycle_counterexample :
    (CommandDesc.print_details
        ⟨["x"], some ⟨some (.ok ['a']), some (.ok [])⟩, .Finished 1⟩).1.command_spawn
      ≠ none ∧
    (CommandDesc.print_details
        ⟨["x"], some ⟨some (.ok ['a']), some (.ok [])⟩, .Finished 1⟩).2 ≠ [] := by
  decide

theorem le_padTo_length (l : List Nat) (n : Nat) : n ≤ (padTo l n).length := by
  simp [padTo]
  omega

theorem writeSeg_ok (t : Terminal) (line : List Char) :
    ∃ t', t.writeSeg line = .ok t' ∧
      t'.next_write ≤ t'.written_lines_lengths.length := by
  have hlen : t.next_write < (padTo t.written_lines_lengths (t.next_write + 1)).length :=
    Nat.lt_of_lt_of_le (Nat.lt_succ_self _) (le_padTo_length _ _)
  rcases hg : (padTo t.written_lines_lengths (t.next_write + 1)).get? t.next_write
    with _ | prev
  · rw [List.get?_eq_none] at hg
    omega
  · by_cases hnl : line.getLast? = some '\n'
    · refine ⟨⟨t.next_write + 1,
        (padTo t.written_lines_lengths (t.next_write + 1)).set t.next_write
          (prev + (byteLen line - 1))⟩, ?_, ?_⟩
      · simp only [Terminal.writeSeg, hg]
        rw [if_pos hnl]
      · simp only [List.length_set]
        omega
    · refine ⟨⟨t.next_write,
        (padTo t.written_lines_lengths (t.next_write + 1)).set t.next_write
          (prev + byteLen line)⟩, ?_, ?_⟩
      · simp only [Terminal.writeSeg, hg]
        rw [if_neg hnl]
      · simp only [List.length_set]
        omega

/-- Claim C9: `write_str` never returns the error branch — for every input
text and every renderer state, the fold over the inclusive newline split
succeeds, because the tracked-row list is padded up to the write cursor
before each row access; moreover every state it produces keeps the write
cursor within the number of tracked rows. -/
theorem write_str_never_fails (t : Terminal) (s : List Char) :
    ∃ t', t.write_str s = .ok t' ∧
      (t'.next_write ≤ t'.written_lines_lengths.length ∨ t' = t) := by
  suffices h : ∀ (segs : List (List Char)) (u : Terminal),
      ∃ t', segs.foldlM Terminal.writeSeg u = .ok t' ∧
        (t'.next_write ≤ t'.written_lines_lengths.length ∨ t' = u) by
    simpa [Terminal.write_str] using h (splitInclusive s) t
  intro segs
  induction segs with
  | nil => exact fun u => ⟨u, rfl, Or.inr rfl⟩
  | cons seg rest ih =>
    intro u
    obtain ⟨u1, h1, hb1⟩ := writeSeg_ok u seg
    obtain ⟨t', h2, hb2⟩ := ih u1
    refine ⟨t', ?_, ?_⟩
    · rw [List.foldlM_cons, h1]
      exact h2
    · rcases hb2 with hb2 | rfl
      · exact Or.inl hb2
      · exact Or.inl hb1

/-- Claim C10: a supervisor whose argument vector is empty is inert — after
any finite number of `summarize_all` rounds it is still exactly the same
`Unstarted`, handle-less supervisor, and `all_done` is false on every one
of those states, so the driving loop never observes completion. -/
theorem empty_argv_inert (s : Commands) (i : Nat) (c : CommandDesc)
    (envs : Nat → TickEnv) (k : Nat)
    (hget : s.commands[i]? = some c)
    (hargv : c.command_strs = [])
    (hstatus : c.status = .Unstarted)
    (hspawn : c.command_spawn = none) :
    (iterTicks envs k s).commands[i]? = some c ∧
    (iterTicks envs k s).all_done = false := by
  have hnoop_start : ∀ out, c.start out = c := fun out => by
    simp [CommandDesc.start, hargv]
  have hnoop_check : ∀ p, c.check p = c := fun p => by
    simp [CommandDesc.check, hstatus, hspawn, CommandStatus.is_terminal_state]
  have hmain : (iterTicks envs k s).commands[i]? = some c := by
    induction k generalizing s envs with
    | zero => simpa [iterTicks] using hget
    | succ k ih =>
      have hstep : (s.summarize_all (envs 0)).1.commands[i]? = some c := by
        simp only [Commands.summarize_all]
        by_cases ht : s.tick > 0
        · simp [ht, stepCmds_get, hget, hnoop_check]
        · simp [ht, stepCmds_get, hget, hnoop_start]
      simp only [iterTicks]
      exact ih _ _ hstep
  refine ⟨hmain, ?_⟩
  cases hdone : (iterTicks envs k s).all_done with
  | false => rfl
  | true =>
    rw [Commands.all_done, List.all_eq_true] at hdone
    have := hdone c (List.getElem?_mem hmain)
    rw [hstatus] at this
    exact absurd this (by decide)

/-- Witness for C10: a two-supervisor set whose first supervisor has an
empty argument vector, driven three rounds while the other command
finishes. -/
theorem empty_argv_inert_witness :
    (iterTicks (fun _ => ⟨fun _ => .ok (.ok []) (.ok []), fun _ => .exited (some 0)⟩) 3
        ⟨[⟨[], none, .Unstarted⟩, ⟨["x"], none, .Unstarted⟩], 0⟩).commands[0]? =
      some ⟨[], none, .Unstarted⟩ ∧
    (iterTicks (fun _ => ⟨fun _ => .ok (.ok []) (.ok []), fun _ => .exited (some 0)⟩) 3
        ⟨[⟨[], none, .Unstarted⟩, ⟨["x"], none, .Unstarted⟩], 0⟩).all_done = false :=
  empty_argv_inert _ 0 ⟨[], none, .Unstarted⟩ _ 3 rfl rfl rfl rfl

theorem stepCmds_length (f : Nat → CommandDesc → CommandDesc) :
    ∀ (l : List CommandDesc) (i : Nat), (stepCmds f i l).length = l.length := by
  intro l
  induction l with
  | nil => intro i; rfl
  | cons c rest ih => intro i; simp [stepCmds, ih]

theorem check_round_id (s : Commands) (env : TickEnv)
    (hdone : s.all_done = true) (htick : s.tick > 0) :
    (s.summarize_all env).1 = ⟨s.commands, (s.tick + 1) % usizeSize⟩ := by
  simp only [Commands.summarize_all]
  rw [if_pos htick]
  congr 1
  apply stepCmds_id
  intro c hc j
  rw [Commands.all_done, List.all_eq_true] at hdone
  exact check_of_terminal c _ (hdone c hc)

/-- Claim C1 (amended): `check` never changes a terminal status, and a
sequence of `k` further `summarize_all` rounds from a state with
`all_done()` true leaves every supervisor untouched provided the tick
counter is positive and does not wrap past `usize::MAX` during those
rounds (so that every round runs `check`, not `start`).  When the wrapping
counter does return to 0, the round calls `start()` again, which can move a
terminal supervisor back to `Running` — see the counterexample. -/
theorem terminal_status_monotone :
    (∀ (c : CommandDesc) (p : PollOutcome),
      c.status.is_terminal_state = true → c.check p = c) ∧
    (∀ (s : Commands) (envs : Nat → TickEnv) (k : Nat),
      s.all_done = true → 0 < s.tick → s.tick + k ≤ usizeSize →
      (iterTicks envs k s).commands = s.commands) := by
  refine ⟨check_of_terminal, ?_⟩
  intro s envs k
  induction k generalizing s envs with
  | zero => intro _ _ _; rfl
  | succ k ih =>
    intro hdone htick hle
    have hstep := check_round_id s (envs 0) hdone htick
    simp only [iterTicks, hstep]
    by_cases hwrap : s.tick + 1 = usizeSize
    · have hk : k = 0 := by omega
      subst hk
      rfl
    · have hmod : (s.tick + 1) % usizeSize = s.tick + 1 :=
        Nat.mod_eq_of_lt (by omega)
      rw [hmod]
      exact ih ⟨s.commands, s.tick + 1⟩ (fun n => envs (n + 1)) hdone
        (Nat.succ_pos s.tick) (show s.tick + 1 + k ≤ usizeSize by omega)

/-- Witness for C1 (amended): a finished one-command set at tick 7,
driven five further rounds, is unchanged. -/
theorem terminal_status_monotone_witness :
    CommandDesc.check ⟨["y"], none, .Error "e"⟩ .stillRunning =
      ⟨["y"], none, .Error "e"⟩ ∧
    (iterTicks (fun _ => ⟨fun _ => .ok (.ok []) (.ok []), fun _ => .stillRunning⟩) 5
        ⟨[⟨["y"], none, .Finished 2⟩], 7⟩).commands = [⟨["y"], none, .Finished 2⟩] :=
  ⟨terminal_status_monotone.1 _ _ (by decide),
   terminal_status_monotone.2 ⟨[⟨["y"], none, .Finished 2⟩], 7⟩ _ 5
     (by decide) (by decide) (by decide)⟩

/-- Counterexample for C1 as stated: a supervisor set with `all_done()`
true whose wrapping tick counter stands at 0 (the value it has after
`usize::MAX + 1` rounds) runs `start()` — not `check()` — on its next
round, moving the terminal `Finished(0)` supervisor back to `Running`. -/
theorem terminal_status_monotone_counterexample :
    (Commands.all_done ⟨[⟨["x"], none, .Finished 0⟩], 0⟩) = true ∧
    ((Commands.summarize_all ⟨[⟨["x"], none, .Finished 0⟩], 0⟩
        ⟨fun _ => .ok (.ok []) (.ok []), fun _ => .stillRunning⟩).1.commands.map
      (fun c => c.status)) = [.Running] := by
  decide

theorem renderFrom_join (tick n : Nat) :
    ∀ (cmds : List CommandDesc) (i : Nat), i + cmds.length ≤ n →
      renderFrom tick n i cmds =
        (cmds.map fun c => c.print_summary tick ++ ['\n']).flatten := by
  intro cmds
  induction cmds with
  | nil => intro i _; simp [renderFrom]
  | cons c rest ih =>
    intro i hle
    simp only [List.length_cons] at hle
    have hne : i ≠ n := by omega
    simp only [renderFrom, if_pos hne, List.map_cons, List.flatten_cons,
      ih (i + 1) (by omega)]

/-- Claim C6 (amended): every `summarize_all` round writes one summary per
supervisor, in insertion order, and every summary — including the last —
is followed by a newline: the guard index `last_commands_idx` is set to
`commands.len()`, which no enumeration index ever equals, so the separator
is written unconditionally. -/
theorem frame_rendering (s : Commands) (env : TickEnv) :
    (s.summarize_all env).2 =
      ((s.summarize_all env).1.commands.map
        (fun c => c.print_summary s.tick ++ ['\n'])).flatten := by
  simp only [Commands.summarize_all]
  by_cases ht : s.tick > 0
  · rw [if_pos ht]
    exact renderFrom_join s.tick _ _ 0 (by simp [stepCmds_length])
  · rw [if_neg ht]
    exact renderFrom_join s.tick _ _ 0 (by simp [stepCmds_length])

/-- Counterexample for C6 as stated: in a one-supervisor set the single
(hence last) summary of the frame is still followed by a trailing
newline. -/
theorem frame_rendering_counterexample :
    (Commands.summarize_all ⟨[⟨["a"], none, .Finished 0⟩], 5⟩
        ⟨fun _ => .fail "x", fun _ => .stillRunning⟩).2.getLast? = some '\n' ∧
    (Commands.summarize_all ⟨[⟨["a"], none, .Finished 0⟩], 5⟩
        ⟨fun _ => .fail "x", fun _ => .stillRunning⟩).1.commands.length = 1 := by
  decide


theorem hasEscSeq_append_left (u t : List Char) (h : hasEscSeq t) :
    hasEscSeq (u ++ t) := by
  obtain ⟨pre, ds, post, heq, hne, hdig⟩ := h
  refine ⟨u ++ pre, ds, post, ?_, hne, hdig⟩
  rw [heq]
  exact (List.append_assoc u pre _).symm

theorem hasEscSeq_mem_esc (t : List Char) (h : hasEscSeq t) : escCh ∈ t := by
  obtain ⟨pre, ds, post, heq, _, _⟩ := h
  rw [heq]
  simp

theorem scanTokens_emits (text : List Char) :
    ∀ st : ScanState, (∀ d ∈ scanDigits st, d.isDigit = true) →
      scanTokens st text ≠ [] → hasEscSeq (scanPending st ++ text) := by
  induction text with
  | nil => intro st _ h; simp [scanTokens] at h
  | cons c rest ih =>
    intro st hdig h
    cases st with
    | outside =>
      simp only [scanPending, List.nil_append]
      by_cases hc : c = escCh
      · subst hc
        have hrec := ih .afterEsc (by simp [scanDigits])
          (by simpa [scanTokens] using h)
        simpa [scanPending] using hrec
      · have hrec := ih .outside (by simp [scanDigits])
          (by simpa [scanTokens, hc] using h)
        simp only [scanPending, List.nil_append] at hrec
        exact hasEscSeq_append_left [c] rest hrec
    | afterEsc =>
      simp only [scanPending]
      by_cases hb : c = '['
      · subst hb
        have hrec := ih (.inCode []) (by simp [scanDigits])
          (by simpa [scanTokens] using h)
        simpa [scanPending] using hrec
      · by_cases hc : c = escCh
        · subst hc
          have hrec := ih .afterEsc (by simp [scanDigits])
            (by simpa [scanTokens, hb] using h)
          simp only [scanPending] at hrec
          simpa using hasEscSeq_append_left [escCh] _ hrec
        · have hrec := ih .outside (by simp [scanDigits])
            (by simpa [scanTokens, hb, hc] using h)
          simp only [scanPending, List.nil_append] at hrec
          simpa using hasEscSeq_append_left [escCh, c] rest hrec
    | inCode ds =>
      simp only [scanPending]
      simp only [scanDigits] at hdig
      by_cases hdig1 : c.isDigit
      · have hrec := ih (.inCode (ds ++ [c]))
          (by
            intro d hd
            rcases List.mem_append.mp hd with hd | hd
            · exact hdig d hd
            · simp at hd
              subst hd
              exact hdig1)
          (by simpa [scanTokens, hdig1] using h)
        simp only [scanPending] at hrec
        obtain ⟨p1, d1, q1, heq, hne1, hdig2⟩ := hrec
        refine ⟨p1, d1, q1, ?_, hne1, hdig2⟩
        rw [← heq]
        simp
      · by_cases hm : c = 'm' ∧ ds ≠ []
        · obtain ⟨hm1, hm2⟩ := hm
          subst hm1
          exact ⟨[], ds, rest, by simp, hm2, hdig⟩
        · by_cases hc : c = escCh
          · subst hc
            have hrec := ih .afterEsc (by simp [scanDigits])
              (by simpa [scanTokens, hdig1, hm] using h)
            simp only [scanPending] at hrec
            have hstep := hasEscSeq_append_left (escCh :: '[' :: ds) _ hrec
            obtain ⟨p1, d1, q1, heq, hne1, hdig2⟩ := hstep
            refine ⟨p1, d1, q1, ?_, hne1, hdig2⟩
            rw [← heq]
            simp
          · have hrec := ih .outside (by simp [scanDigits])
              (by simpa [scanTokens, hdig1, hm, hc] using h)
            simp only [scanPending, List.nil_append] at hrec
            have hstep := hasEscSeq_append_left (escCh :: '[' :: ds ++ [c]) rest hrec
            obtain ⟨p1, d1, q1, heq, hne1, hdig2⟩ := hstep
            refine ⟨p1, d1, q1, ?_, hne1, hdig2⟩
            rw [← heq]
            simp

theorem find_all_of_no_seq (text : List Char) (h : ¬ hasEscSeq text) :
    Color.find_all text = [] := by
  rw [Color.find_all]
  by_contra hne
  have hmap : scanTokens .outside text ≠ [] := by
    intro he
    rw [he] at hne
    exact hne rfl
  have := scanTokens_emits text .outside (by simp [scanDigits]) hmap
  simp only [scanPending, List.nil_append] at this
  exact h this

theorem scanTokens_passthrough (pre : List Char) (hpre : escCh ∉ pre)
    (t : List Char) : scanTokens .outside (pre ++ t) = scanTokens .outside t := by
  induction pre with
  | nil => rfl
  | cons c rest ih =>
    have hc : ¬ c = escCh := fun hc => hpre (by simp [hc])
    have hrest : escCh ∉ rest := fun hm => hpre (List.mem_cons_of_mem _ hm)
    simp only [List.cons_append, scanTokens, if_neg hc]
    exact ih hrest

theorem scanTokens_digits (post : List Char) :
    ∀ (ds ds0 : List Char), (∀ d ∈ ds, d.isDigit = true) → ds0 ++ ds ≠ [] →
      scanTokens (.inCode ds0) (ds ++ 'm' :: post) =
        (ds0 ++ ds) :: scanTokens .outside post := by
  intro ds
  induction ds with
  | nil =>
    intro ds0 _ hne
    have hds0 : ds0 ≠ [] := by simpa using hne
    simp [scanTokens, hds0, show ¬ ('m' : Char).isDigit = true by decide]
  | cons d ds ih =>
    intro ds0 hdig hne
    have hd : d.isDigit = true := hdig d (by simp)
    simp only [List.cons_append, scanTokens, if_pos hd, List.append_eq]
    rw [ih (ds0 ++ [d]) (fun x hx => hdig x (by simp [hx])) (by simp)]
    simp

theorem find_all_decompose (pre ds post : List Char) (hpre : escCh ∉ pre)
    (hne : ds ≠ []) (hdig : ∀ d ∈ ds, d.isDigit = true) :
    Color.find_all (pre ++ escCh :: '[' :: (ds ++ 'm' :: post)) =
      codeToColor ds :: Color.find_all post := by
  rw [Color.find_all, scanTokens_passthrough pre hpre]
  have h1 : scanTokens .outside (escCh :: '[' :: (ds ++ 'm' :: post)) =
      scanTokens (.inCode []) (ds ++ 'm' :: post) := by
    simp [scanTokens]
  rw [h1, scanTokens_digits post ds [] hdig (by simpa using hne)]
  rfl

/-- Claim C7: `find_all` maps every occurrence of `ESC [ <digits> m`, in
left-to-right order, to a color — the captured code `0` to `Normal`, `90`
to `Gray`, `32` to `Green`, `31` to `Red`, `33` to `Yellow`, any other
code that parses as an `i32` to `Other(code)`, and an unparseable
(overflowing) code to `Normal`; it is total by construction and returns
the empty list on any text with no escape sequence, in particular on the
empty string. -/
theorem parse_all_characterization :
    (∀ text, ¬ hasEscSeq text → Color.find_all text = []) ∧
    Color.find_all [] = [] ∧
    (∀ pre ds post, escCh ∉ pre → ds ≠ [] → (∀ d ∈ ds, d.isDigit = true) →
      Color.find_all (pre ++ escCh :: '[' :: (ds ++ 'm' :: post)) =
        codeToColor ds :: Color.find_all post) ∧
    (codeToColor ['0'] = .Normal ∧ codeToColor ['9', '0'] = .Gray ∧
     codeToColor ['3', '2'] = .Green ∧ codeToColor ['3', '1'] = .Red ∧
     codeToColor ['3', '3'] = .Yellow) ∧
    (∀ ds n, ds ≠ ['0'] → ds ≠ ['9', '0'] → ds ≠ ['3', '2'] →
      ds ≠ ['3', '1'] → ds ≠ ['3', '3'] →
      i32_from_str ds = some n → codeToColor ds = .Other n) ∧
    (∀ ds, ds ≠ ['0'] → ds ≠ ['9', '0'] → ds ≠ ['3', '2'] →
      ds ≠ ['3', '1'] → ds ≠ ['3', '3'] →
      i32_from_str ds = none → codeToColor ds = .Normal) := by
  refine ⟨find_all_of_no_seq, rfl, find_all_decompose,
    ⟨by decide, by decide, by decide, by decide, by decide⟩,
    fun ds n h1 h2 h3 h4 h5 hp => ?_, fun ds h1 h2 h3 h4 h5 hp => ?_⟩
  · simp [codeToColor, h1, h2, h3, h4, h5, hp]
  · simp [codeToColor, h1, h2, h3, h4, h5, hp]

/-- Witness for C7: escape-free text parses to nothing; a `Gray` sequence
embedded between plain text is captured in place; `42` maps to
`Other 42`; an overflowing code maps to `Normal`. -/
theorem parse_all_characterization_witness :
    Color.find_all "plain text".data = [] ∧
    Color.find_all ("ab".data ++ escCh :: '[' :: (['9', '0'] ++ 'm' :: "cd".data)) =
      codeToColor ['9', '0'] :: Color.find_all "cd".data ∧
    codeToColor ['4', '2'] = .Other 42 ∧
    codeToColor ['9', '9', '9', '9', '9', '9', '9', '9', '9', '9', '9'] = .Normal :=
  ⟨parse_all_characterization.1 _
    (fun h => absurd (hasEscSeq_mem_esc _ h) (by decide)),
   parse_all_characterization.2.2.1 "ab".data ['9', '0'] "cd".data
     (by decide) (by decide) (by decide),
   parse_all_characterization.2.2.2.2.1 ['4', '2'] 42
     (by decide) (by decide) (by decide) (by decide) (by decide) (by decide),
   parse_all_characterization.2.2.2.2.2 ['9', '9', '9', '9', '9', '9', '9', '9', '9', '9', '9']
     (by decide) (by decide) (by decide) (by decide) (by decide) (by decide)⟩
